import Mathlib

set_option autoImplicit false

namespace Superops

/-!  Shallow embedding of `src/parser.ts` (the `SuperopsDocumentationParser`
class, authoritative copy in `src/unnamed/part_003`).  Documents are modelled
as the sibling sequence of nodes the parser walks; each node carries its tag,
its cheerio `.text()` content and, for tables, the cell texts of its
`tbody tr td` rows.  JavaScript string operations (`trim`, `toLowerCase`,
`toUpperCase`, `includes`, `startsWith`, `endsWith`) are modelled over
`List Char`; the case maps agree with JavaScript on the ASCII range, which
covers every literal the source compares against.  -/

/-- JavaScript whitespace (the `\s` class and `String.prototype.trim` set),
restricted to the code points the documents can contain. -/
def isJsWs (c : Char) : Bool :=
  c = ' ' || c = '\t' || c = '\n' || c = '\r' ||
  c = Char.ofNat 11 || c = Char.ofNat 12 || c = Char.ofNat 0xa0 ||
  c = Char.ofNat 0x2028 || c = Char.ofNat 0x2029 || c = Char.ofNat 0xfeff

/-- JavaScript line terminators: the characters the regexp `.` never matches. -/
def isLineTerm (c : Char) : Bool :=
  c = '\n' || c = '\r' || c = Char.ofNat 0x2028 || c = Char.ofNat 0x2029

/-- Model of `String.prototype.trim` on a character list. -/
def trimL (l : List Char) : List Char :=
  ((l.dropWhile isJsWs).reverse.dropWhile isJsWs).reverse

/-- Model of `String.prototype.trim`. -/
def trimS (s : String) : String := String.mk (trimL s.toList)

/-- Model of `String.prototype.toLowerCase` on a character list (ASCII-exact). -/
def lowerL (l : List Char) : List Char := l.map Char.toLower

/-- Model of `String.prototype.toLowerCase`. -/
def strToLower (s : String) : String := String.mk (lowerL s.toList)

/-- Model of `String.prototype.toUpperCase` (ASCII-exact). -/
def strToUpper (s : String) : String := String.mk (s.toList.map Char.toUpper)

/-- Boolean: the first list is a prefix of the second. -/
def isPrefixOfB : List Char → List Char → Bool
  | [], _ => true
  | _ :: _, [] => false
  | p :: ps, c :: cs => p == c && isPrefixOfB ps cs

/-- Boolean: `pat` occurs as a contiguous substring (`String.prototype.includes`). -/
def containsSub (pat : List Char) : List Char → Bool
  | [] => isPrefixOfB pat []
  | c :: cs => isPrefixOfB pat (c :: cs) || containsSub pat cs

/-- Model of `s.includes(pat)`. -/
def strContains (s pat : String) : Bool := containsSub pat.toList s.toList

/-- Model of `s.startsWith(pat)`. -/
def strStartsWith (s pat : String) : Bool := isPrefixOfB pat.toList s.toList

/-- Model of `s.endsWith(pat)`. -/
def strEndsWith (s pat : String) : Bool := isPrefixOfB pat.toList.reverse s.toList.reverse

/-- Model of `s.includes` applied to the bang character, on a character list. -/
def hasBangL (l : List Char) : Bool := l.any (fun c => c == '!')

/-! ### Data model (`GraphQLField`, `GraphQLArgument`, type records) -/

inductive TypeKind where
  | OBJECT | INPUT_OBJECT | ENUM | SCALAR | INTERFACE | UNION
deriving DecidableEq

structure GraphQLField where
  name : String
  type : String
  description : Option String := none
  required : Bool
deriving DecidableEq

/-- Source interface `GraphQLArgument extends GraphQLField` with an optional default value;
no code path of the parser ever assigns `defaultValue`. -/
structure GraphQLArgument where
  name : String
  type : String
  description : Option String := none
  required : Bool
  defaultValue : Option String := none
deriving DecidableEq

structure EnumValue where
  name : String
  description : Option String := none
deriving DecidableEq

/-! ### Kind inference (`inferTypeKind`) -/

/-- The scalar name list from `inferTypeKind`. -/
def scalarNames : List String := ["String", "Int", "Float", "Boolean", "ID", "JSON"]

/-- Source function `inferTypeKind`: `Input` suffix, then `Enum` suffix or
all-uppercase, then the scalar list, else `OBJECT`. -/
def inferTypeKind (typeName : String) : TypeKind :=
  if strEndsWith typeName "Input" then .INPUT_OBJECT
  else if strEndsWith typeName "Enum" || strToUpper typeName == typeName then .ENUM
  else if scalarNames.contains typeName then .SCALAR
  else .OBJECT

/-! ### Document model -/

inductive Tag where
  | h2 | h3 | p | table | pre | code | div | other
deriving DecidableEq

/-- One document node: its tag, its cheerio `.text()` and, for tables, the
texts of the `td` cells of each `tbody tr` row. -/
structure Node where
  tag : Tag
  text : String
  rows : List (List String) := []
deriving DecidableEq

/-! ### Table parser (`parseArgumentsTable`, `parseFieldsTable`,
`parseEnumValuesTable`) -/

/-- First character of a JavaScript identifier as in `[a-zA-Z_]`. -/
def isIdentStart (c : Char) : Bool := c.isAlpha || c = '_'

/-- Subsequent identifier character as in `[a-zA-Z0-9_]`. -/
def isIdentChar (c : Char) : Bool := c.isAlphanum || c = '_'

/-- Execution of the anchored regexp `^([a-zA-Z_][a-zA-Z0-9_]*)\s*-\s*(.+)$`
(no `m` flag, so `$` is end of input and `.` excludes line terminators).
Greedy matching is deterministic here: the identifier run, the whitespace
runs and the dash cannot trade characters with each other, so maximal-munch
reproduces the backtracking engine.  Group 2 must be non-empty and reach the
end of the input without a line terminator. -/
def matchNameType (cs : List Char) : Option (List Char × List Char) :=
  match cs with
  | [] => none
  | c :: rest =>
    if isIdentStart c then
      let name := c :: rest.takeWhile isIdentChar
      let r1 := (rest.dropWhile isIdentChar).dropWhile isJsWs
      match r1 with
      | '-' :: tail =>
        let grp2 := tail.dropWhile isJsWs
        if grp2.isEmpty || grp2.any isLineTerm then none
        else some (name, grp2)
      | _ => none
    else none

/-- One `tbody tr` row of an arguments/fields table, as the source handles it:
two cells required, first cell matched against the `name - type` pattern;
`required` is derived from the raw group 2, `type` stores its trim. -/
def rowToField (row : List String) : Option GraphQLField :=
  match row with
  | c0 :: c1 :: _ =>
    match matchNameType (trimS c0).toList with
    | some (name, typeInfo) =>
        some { name := String.mk name
               type := trimS (String.mk typeInfo)
               description := some (trimS c1)
               required := hasBangL typeInfo }
    | none => none
  | _ => none

/-- Same row treatment for `parseArgumentsTable` (identical logic, argument
record type). -/
def rowToArgument (row : List String) : Option GraphQLArgument :=
  match row with
  | c0 :: c1 :: _ =>
    match matchNameType (trimS c0).toList with
    | some (name, typeInfo) =>
        some { name := String.mk name
               type := trimS (String.mk typeInfo)
               description := some (trimS c1)
               required := hasBangL typeInfo }
    | none => none
  | _ => none

/-- Source function `parseFieldsTable`. -/
def parseFieldsTable (t : Node) : List GraphQLField := t.rows.filterMap rowToField

/-- Source function `parseArgumentsTable`. -/
def parseArgumentsTable (t : Node) : List GraphQLArgument := t.rows.filterMap rowToArgument

/-- One row of an enum-values table: cell 1 (trimmed) is the name when
non-empty, cell 2 (if present) the description. -/
def rowToEnumValue (row : List String) : Option EnumValue :=
  match row with
  | [] => none
  | c0 :: restCells =>
    let nameCell := trimS c0
    if nameCell = "" then none
    else some { name := nameCell
                description := match restCells with
                  | c1 :: _ => some (trimS c1)
                  | [] => none }

/-- Source function `parseEnumValuesTable`. -/
def parseEnumValuesTable (t : Node) : List EnumValue := t.rows.filterMap rowToEnumValue

/-! ### Name-keyed mappings (JavaScript object semantics).  Assignment to an
existing key overwrites its value in place; a new key that is an ECMAScript
array index (the canonical decimal spelling of an integer below 2^32 - 1)
is iterated ahead of all other keys in ascending numeric order, while every
other new key is appended in first-insertion order. -/

/-- Decimal digit, by code point (48-57). -/
def isDigitC (c : Char) : Bool := 48 ≤ c.toNat && c.toNat ≤ 57

/-- Canonical decimal spelling: non-empty, all digits, and no leading zero
except for the single digit 0. -/
def isDigitsCanon : List Char → Bool
  | [] => false
  | c :: cs => isDigitC c && cs.all isDigitC && !(c.toNat = 48 && !cs.isEmpty)

/-- One decimal accumulation step. -/
def digitStep (n : Nat) (c : Char) : Nat := n * 10 + (c.toNat - 48)

/-- Numeric value of a digit run. -/
def digitsToNat (l : List Char) : Nat := l.foldl digitStep 0

/-- ECMAScript array-index key: canonical decimal spelling of an integer
below 2^32 - 1.  Objects iterate these keys first, numerically sorted. -/
def isArrayIndexKey (s : String) : Bool :=
  isDigitsCanon s.toList && digitsToNat s.toList < 4294967295

/-- Numeric value of a key's spelling. -/
def keyNum (s : String) : Nat := digitsToNat s.toList

/-- A new key k is placed in front of an existing key k2 exactly when k is
an array-index key and k2 is either a plain string key or an array-index
key with a larger number. -/
def insBefore (k k2 : String) : Bool :=
  isArrayIndexKey k && (!isArrayIndexKey k2 || decide (keyNum k < keyNum k2))

/-- JavaScript object assignment `m[k] = v` on the iteration-ordered entry
list: an existing key keeps its position and takes the new value; a new
array-index key is inserted into the numerically sorted index-key prefix;
any other new key is appended after everything. -/
def upsert {α : Type} : List (String × α) → String → α → List (String × α)
  | [], k, v => [(k, v)]
  | (k', v') :: rest, k, v =>
    if k' = k then (k, v) :: rest
    else if insBefore k k' then (k, v) :: (k', v') :: rest
    else (k', v') :: upsert rest k v

def keysOf {α : Type} (m : List (String × α)) : List String := m.map Prod.fst

def lookupKey {α : Type} : List (String × α) → String → Option α
  | [], _ => none
  | (k', v') :: rest, k => if k' = k then some v' else lookupKey rest k

/-! ### Example extractor (`parseExample`).  `JSON.parse` is a JavaScript
runtime primitive external to the repository, so the parser is parameterized
by a validity oracle `jv`: the value stored is the decoded block on success
(`JVal.parsed`, kept as its source text) or the raw trimmed text on failure
(`JVal.raw`). -/

inductive JVal where
  | parsed (s : String)
  | raw (s : String)
deriving DecidableEq

structure ExampleObj where
  query : String := ""
  vars : Option JVal := none
  response : Option JVal := none
deriving DecidableEq

/-- Model of the cheerio test `.is` for headings `h3, h2`. -/
def isHeading (n : Node) : Bool := n.tag = .h3 || n.tag = .h2

/-- Model of the cheerio test `.next().is` for `pre, code` in list form. -/
def nextIsCode : List Node → Bool
  | m :: _ => m.tag = .pre || m.tag = .code
  | [] => false

/-- Model of `.next().text()` in list form. -/
def nextText : List Node → String
  | m :: _ => m.text
  | [] => ""

/-- The scan loop of `parseExample`: each sibling is classified by
substring match on its lowercased text, the payload is the next sibling's
trimmed text; the cursor advances one node per iteration and stops at the
next `h3`/`h2`. -/
def parseExampleGo (jv : String → Bool) (acc : ExampleObj) : List Node → ExampleObj
  | [] => acc
  | n :: rest =>
    if isHeading n then acc
    else
      let t := strToLower n.text
      let acc2 :=
        if strContains t "query" && nextIsCode rest then
          { acc with query := trimS (nextText rest) }
        else if strContains t "variables" && nextIsCode rest then
          let vt := trimS (nextText rest)
          { acc with vars := some (if jv vt then .parsed vt else .raw vt) }
        else if strContains t "response" && nextIsCode rest then
          let rt := trimS (nextText rest)
          { acc with response := some (if jv rt then .parsed rt else .raw rt) }
        else acc
      parseExampleGo jv acc2 rest

/-- Source function `parseExample`, applied to the siblings after the "example" marker node. -/
def parseExample (jv : String → Bool) (siblings : List Node) : ExampleObj :=
  parseExampleGo jv {} siblings

/-! ### Return-type regexp `/returns?\s+an?\s+([A-Za-z0-9_]+)/i` -/

/-- Strip a lowercase pattern case-insensitively from the head of the input. -/
def stripCI : List Char → List Char → Option (List Char)
  | [], cs => some cs
  | _ :: _, [] => none
  | p :: ps, c :: cs => if c.toLower = p then stripCI ps cs else none

/-- One attempt of the return-type regexp at the head of the input.  The
optional letters `s?`/`n?` can never trade characters with the mandatory
whitespace that follows them, and nothing follows the greedy capture, so
maximal-munch reproduces the backtracking engine. -/
def matchReturnsAt (cs : List Char) : Option String :=
  match stripCI ("return".toList) cs with
  | none => none
  | some r0 =>
    let r1 := match r0 with
      | c :: t => if c.toLower = 's' then t else r0
      | [] => r0
    match r1 with
    | c :: t =>
      if isJsWs c then
        match t.dropWhile isJsWs with
        | a :: t2 =>
          if a.toLower = 'a' then
            let r3 := match t2 with
              | c2 :: t3 => if c2.toLower = 'n' then t3 else t2
              | [] => t2
            match r3 with
            | c3 :: t4 =>
              if isJsWs c3 then
                let ident := (t4.dropWhile isJsWs).takeWhile isIdentChar
                if ident.isEmpty then none else some (String.mk ident)
              else none
            | [] => none
          else none
        | [] => none
      else none
    | [] => none

/-- Leftmost application of the return-type regexp (`String.prototype.match`
without the `g` flag): first position at which an attempt succeeds. -/
def returnMatchL : List Char → Option String
  | [] => none
  | c :: cs =>
    match matchReturnsAt (c :: cs) with
    | some s => some s
    | none => returnMatchL cs

def returnMatch (s : String) : Option String := returnMatchL s.toList

/-! ### Operation extractor (`parseOperation`), phase by phase.  Each phase
consumes the sibling list from where the previous one stopped, mirroring the
single shared cursor of the source. -/

/-- Description phase: a leading `p` whose lowercased text starts with
"description" is consumed, and the following node contributes the
description when it is a `p`. -/
def descPhase : List Node → Option String × List Node
  | [] => (none, [])
  | n :: rest =>
    if n.tag = .p && strStartsWith (strToLower n.text) "description" then
      match rest with
      | m :: rest2 =>
        if m.tag = .p then (some (trimS m.text), rest2) else (none, m :: rest2)
      | [] => (none, [])
    else (none, n :: rest)

/-- Return-type phase: walk to the first node (before the next `h3`/`h2`)
whose text mentions "response" or "returns", apply the return-type regexp to
its text and advance one past it; without such a node the cursor runs to the
phase boundary. -/
def returnsPhase : List Node → Option String × List Node
  | [] => (none, [])
  | n :: rest =>
    if isHeading n then (none, n :: rest)
    else if strContains (strToLower n.text) "response"
         || strContains (strToLower n.text) "returns" then
      (returnMatch n.text, rest)
    else returnsPhase rest

/-- Arguments phase: a table node is parsed directly; a node mentioning
"arguments" advances to its successor, which is parsed when it is a table
and skipped (without a heading check) otherwise. -/
def argsPhase : List Node → Option (List GraphQLArgument) × List Node
  | [] => (none, [])
  | n :: rest =>
    if isHeading n then (none, n :: rest)
    else if n.tag = .table then (some (parseArgumentsTable n), rest)
    else if strContains (strToLower n.text) "arguments" then
      match rest with
      | m :: rest2 =>
        if m.tag = .table then (some (parseArgumentsTable m), rest2)
        else argsPhase rest2
      | [] => (none, [])
    else argsPhase rest

/-- Example phase: the first node (before the next `h3`/`h2`) whose text
mentions "example" hands the remaining siblings to the example extractor. -/
def examplePhase (jv : String → Bool) : List Node → Option ExampleObj
  | [] => none
  | n :: rest =>
    if isHeading n then none
    else if strContains (strToLower n.text) "example" then some (parseExample jv rest)
    else examplePhase jv rest

inductive OpKind where
  | query | mutation
deriving DecidableEq

structure GraphQLOperation where
  name : String
  type : OpKind
  description : Option String := none
  arguments : Option (List GraphQLArgument) := none
  returnType : Option String := none
  exampleObj : Option ExampleObj := none
deriving DecidableEq

/-- Source function `parseOperation`: trimmed heading text is the name (empty text yields no
record), then the four phases run over one shared forward cursor. -/
def parseOperation (jv : String → Bool) (headingText : String)
    (siblings : List Node) (kind : OpKind) : Option GraphQLOperation :=
  let name := trimS headingText
  if name = "" then none
  else
    let d := descPhase siblings
    let r := returnsPhase d.2
    let a := argsPhase r.2
    let ex := examplePhase jv a.2
    some { name := name, type := kind, description := d.1, returnType := r.1,
           arguments := a.1, exampleObj := ex }

structure GraphQLType where
  name : String
  kind : TypeKind
  description : Option String := none
  fields : Option (List GraphQLField) := none
  enumValues : Option (List EnumValue) := none
deriving DecidableEq

/-- Table phase of `parseType`: first table (or "fields"/"values" marker
followed by a table) before the next `h3`/`h2`; parsed as enum values for
`ENUM` kinds and as fields otherwise. -/
def tablePhaseTy (kind : TypeKind) :
    List Node → Option (List GraphQLField) × Option (List EnumValue)
  | [] => (none, none)
  | n :: rest =>
    if isHeading n then (none, none)
    else if n.tag = .table then
      if kind = .ENUM then (none, some (parseEnumValuesTable n))
      else (some (parseFieldsTable n), none)
    else if strContains (strToLower n.text) "fields"
         || strContains (strToLower n.text) "values" then
      match rest with
      | m :: rest2 =>
        if m.tag = .table then
          if kind = .ENUM then (none, some (parseEnumValuesTable m))
          else (some (parseFieldsTable m), none)
        else tablePhaseTy kind rest2
      | [] => (none, none)
    else tablePhaseTy kind rest

/-- Source function `parseType`: name and inferred kind, then description and table phases. -/
def parseType (headingText : String) (siblings : List Node) : Option GraphQLType :=
  let name := trimS headingText
  if name = "" then none
  else
    let kind := inferTypeKind name
    let d := descPhase siblings
    let tb := tablePhaseTy kind d.2
    some { name := name, kind := kind, description := d.1,
           fields := tb.1, enumValues := tb.2 }

abbrev OpMap := List (String × GraphQLOperation)
abbrev TyMap := List (String × GraphQLType)

/-- The sibling walk of `parseQueries`/`parseMutations`: visit every node
until the next `h2`, handing each `h3` to `parseOperation` together with the
nodes after it. -/
def collectOps (jv : String → Bool) (kind : OpKind) : List Node → OpMap → OpMap
  | [], acc => acc
  | n :: rest, acc =>
    if n.tag = .h2 then acc
    else if n.tag = .h3 then
      match parseOperation jv n.text rest kind with
      | some op => collectOps jv kind rest (upsert acc op.name op)
      | none => collectOps jv kind rest acc
    else collectOps jv kind rest acc

/-- The sibling walk of `parseTypes`: identical to `collectOps` except that
its loop condition checks only exhaustion — it does NOT stop at the next
`h2` (the source loop is `while (currentElement.length)`). -/
def collectTypes : List Node → TyMap → TyMap
  | [], acc => acc
  | n :: rest, acc =>
    if n.tag = .h3 then
      match parseType n.text rest with
      | some ty => collectTypes rest (upsert acc ty.name ty)
      | none => collectTypes rest acc
    else collectTypes rest acc

/-- Locate the first `h2` whose trimmed, lowercased text equals the section
title, returning the siblings after it. -/
def findSection : List Node → String → Option (List Node)
  | [], _ => none
  | n :: rest, title =>
    if n.tag = .h2 && strToLower (trimS n.text) = title then some rest
    else findSection rest title

def parseQueries (jv : String → Bool) (doc : List Node) : OpMap :=
  match findSection doc "queries" with
  | some rest => collectOps jv .query rest []
  | none => []

def parseMutations (jv : String → Bool) (doc : List Node) : OpMap :=
  match findSection doc "mutations" with
  | some rest => collectOps jv .mutation rest []
  | none => []

def parseTypes (doc : List Node) : TyMap :=
  match findSection doc "types" with
  | some rest => collectTypes rest []
  | none => []

/-! ### Endpoints (`parseEndpoints`) -/

structure Endpoints where
  us : String
  eu : String
deriving DecidableEq

def usUrl : String := "https://api.superops.ai/msp"
def euUrl : String := "https://euapi.superops.ai/msp"

/-- Case-insensitive prefix test (`/i` flag). -/
def startsWithCI : List Char → List Char → Bool
  | [], _ => true
  | _ :: _, [] => false
  | p :: ps, c :: cs => (c.toLower == p.toLower) && startsWithCI ps cs

/-- The lazy `.*?(<urlPat>)` tail of the endpoint regexps: consume
non-line-terminator characters until the first case-insensitive occurrence
of the URL literal; the capture is the matched slice of the input. -/
def searchUrlFrom (urlPat : List Char) : List Char → Option (List Char)
  | [] => if startsWithCI urlPat [] then some [] else none
  | c :: cs =>
    if startsWithCI urlPat (c :: cs) then some ((c :: cs).take urlPat.length)
    else if isLineTerm c then none
    else searchUrlFrom urlPat cs

/-- Leftmost match of `/<label>.*?(<urlPat>)/i`, returning the captured
slice of the input. -/
def regexEndpoint (label urlPat : List Char) : List Char → Option (List Char)
  | [] => none
  | c :: cs =>
    if startsWithCI label (c :: cs) then
      match searchUrlFrom urlPat ((c :: cs).drop label.length) with
      | some cap => some cap
      | none => regexEndpoint label urlPat cs
    else regexEndpoint label urlPat cs

/-- The per-element body of the `parseEndpoints` scan: each regexp match
re-assigns the corresponding endpoint to its captured group. -/
def endpointScanText (ep : Endpoints) (t : List Char) : Endpoints :=
  let ep1 := match regexEndpoint ("US data center".toList) usUrl.toList t with
    | some cap => { ep with us := String.mk cap }
    | none => ep
  match regexEndpoint ("EU data center".toList) euUrl.toList t with
  | some cap => { ep1 with eu := String.mk cap }
  | none => ep1

/-- Tags selected by `$('p, div, code')`. -/
def isTextScanTag (tag : Tag) : Bool := tag = .p || tag = .div || tag = .code

/-- Source function `parseEndpoints` (the `part_003` copy): defaults for both regions, then
a scan over the document's `p`/`div`/`code` nodes re-assigning on match.
The cheerio selector also reaches nested descendants; in this
sibling-sequence model the scanned elements are the top-level such nodes
(the per-node action is the same either way). -/
def parseEndpoints (doc : List Node) : Endpoints :=
  doc.foldl
    (fun ep n => if isTextScanTag n.tag then endpointScanText ep n.text.toList else ep)
    { us := usUrl, eu := euUrl }

/-! ### `parseAll` and the parse entry point -/

structure Summary where
  totalQueries : Nat
  totalMutations : Nat
  totalTypes : Nat
deriving DecidableEq

structure Catalog where
  endpoints : Endpoints
  queries : OpMap
  mutations : OpMap
  types : TyMap
  summary : Summary
deriving DecidableEq

def parseAll (jv : String → Bool) (doc : List Node) : Catalog :=
  let queries := parseQueries jv doc
  let mutations := parseMutations jv doc
  let types := parseTypes doc
  { endpoints := parseEndpoints doc
    queries := queries
    mutations := mutations
    types := types
    summary := { totalQueries := (keysOf queries).length
                 totalMutations := (keysOf mutations).length
                 totalTypes := (keysOf types).length } }

inductive ParseError where
  | malformedDocument
deriving DecidableEq

/-- Modelled from the spec: the document-tree construction step
(`cheerio.load` in the constructor) is external code, abstracted as `load`;
total inability to build a tree is surfaced as the fatal
`MalformedDocument` error, and any built tree is handed to `parseAll`,
which is total. -/
def loadAndParseAll (load : String → Option (List Node)) (jv : String → Bool)
    (input : String) : Except ParseError Catalog :=
  match load input with
  | none => Except.error ParseError.malformedDocument
  | some doc => Except.ok (parseAll jv doc)

/-! ### Search (`searchOperations`, `searchTypes`).  The source loop pushes
an entity (at most once, via `continue`) when any of its match conditions
holds, preserving catalog order — i.e. it filters the value sequence by the
disjunction of the conditions, including the JavaScript truthiness guards
on optional strings (an empty-string description is falsy and short-circuits
its branch). -/

def argMatch (sl : String) (a : GraphQLArgument) : Bool :=
  strContains (strToLower a.name) sl || strContains (strToLower a.type) sl ||
    (match a.description with
     | some d => (d != "") && strContains (strToLower d) sl
     | none => false)

def opMatch (sl : String) (op : GraphQLOperation) : Bool :=
  strContains (strToLower op.name) sl ||
  (match op.description with
   | some d => (d != "") && strContains (strToLower d) sl
   | none => false) ||
  (match op.arguments with
   | some args => args.any (argMatch sl)
   | none => false) ||
  (match op.returnType with
   | some r => (r != "") && strContains (strToLower r) sl
   | none => false)

def searchOperations (q : String) (ops : OpMap) : List GraphQLOperation :=
  (ops.map Prod.snd).filter (opMatch (strToLower q))

def fieldMatch (sl : String) (f : GraphQLField) : Bool :=
  strContains (strToLower f.name) sl || strContains (strToLower f.type) sl ||
    (match f.description with
     | some d => (d != "") && strContains (strToLower d) sl
     | none => false)

def enumValueMatch (sl : String) (e : EnumValue) : Bool :=
  strContains (strToLower e.name) sl ||
    (match e.description with
     | some d => (d != "") && strContains (strToLower d) sl
     | none => false)

def tyMatch (sl : String) (ty : GraphQLType) : Bool :=
  strContains (strToLower ty.name) sl ||
  (match ty.description with
   | some d => (d != "") && strContains (strToLower d) sl
   | none => false) ||
  (match ty.fields with
   | some fs => fs.any (fieldMatch sl)
   | none => false) ||
  (match ty.enumValues with
   | some es => es.any (enumValueMatch sl)
   | none => false)

def searchTypes (q : String) (tys : TyMap) : List GraphQLType :=
  (tys.map Prod.snd).filter (tyMatch (strToLower q))

/-! ### Spec-worded search predicates (§4.8), for refinement comparison with
the code's filter conditions -/

/-- Modelled from the spec's words: the query is a case-insensitive
substring of the argument's name, type, or description. -/
def specArgMatch (q : String) (a : GraphQLArgument) : Bool :=
  strContains (strToLower a.name) (strToLower q) ||
  strContains (strToLower a.type) (strToLower q) ||
  (match a.description with
   | some d => strContains (strToLower d) (strToLower q)
   | none => false)

/-- Modelled from the spec's words: case-insensitive substring of the
operation's name, description, any argument's name/type/description, or the
return type. -/
def specOpMatch (q : String) (op : GraphQLOperation) : Bool :=
  strContains (strToLower op.name) (strToLower q) ||
  (match op.description with
   | some d => strContains (strToLower d) (strToLower q)
   | none => false) ||
  (match op.arguments with
   | some args => args.any (specArgMatch q)
   | none => false) ||
  (match op.returnType with
   | some r => strContains (strToLower r) (strToLower q)
   | none => false)

/-- Modelled from the spec's words: the query is a case-insensitive
substring of the field's name, type, or description. -/
def specFieldMatch (q : String) (f : GraphQLField) : Bool :=
  strContains (strToLower f.name) (strToLower q) ||
  strContains (strToLower f.type) (strToLower q) ||
  (match f.description with
   | some d => strContains (strToLower d) (strToLower q)
   | none => false)

/-- Modelled from the spec's words: the query is a case-insensitive
substring of the enum value's name or description. -/
def specEnumValueMatch (q : String) (e : EnumValue) : Bool :=
  strContains (strToLower e.name) (strToLower q) ||
  (match e.description with
   | some d => strContains (strToLower d) (strToLower q)
   | none => false)

/-- Modelled from the spec's words: case-insensitive substring of the
type's name, description, any field's name/type/description, or any enum
value's name/description. -/
def specTyMatch (q : String) (ty : GraphQLType) : Bool :=
  strContains (strToLower ty.name) (strToLower q) ||
  (match ty.description with
   | some d => strContains (strToLower d) (strToLower q)
   | none => false) ||
  (match ty.fields with
   | some fs => fs.any (specFieldMatch q)
   | none => false) ||
  (match ty.enumValues with
   | some es => es.any (specEnumValueMatch q)
   | none => false)

/-- The operation of the spec's search example. -/
def getTicketListOp : GraphQLOperation :=
  { name := "getTicketList", type := OpKind.query,
    description := some "Fetch tickets" }

/-- The scenario table with the single row `ticketId - ID!` / `Unique identifier`. -/
def ticketTable : Node :=
  { tag := Tag.table, text := "ticketId - ID!Unique identifier",
    rows := [["ticketId - ID!", "Unique identifier"]] }

/-- The argument record the scenario table row yields. -/
def ticketIdField : GraphQLField :=
  { name := "ticketId", type := "ID!", description := some "Unique identifier",
    required := true }

/-- The effect of one JavaScript object assignment on the key sequence
(mirrors `upsert`): an existing key keeps its position, a new array-index
key enters the sorted index prefix, any other new key is appended. -/
def insertKey : List String → String → List String
  | [], k => [k]
  | k' :: rest, k =>
    if k' = k then k' :: rest
    else if insBefore k k' then k :: k' :: rest
    else k' :: insertKey rest k

/-- The entry names a sibling run contributes: the trimmed texts of its `h3`
nodes, empty names dropped. -/
def entryNames (l : List Node) : List String :=
  ((l.filter (fun n => n.tag == Tag.h3)).map (fun n => trimS n.text)).filter
    (fun s => !(s == ""))

/-- The sibling run up to (excluding) the next `h2`. -/
def stopAtH2 (l : List Node) : List Node :=
  l.takeWhile (fun n => !(n.tag == Tag.h2))

/-- The key sequence produced by repeated object assignment: the distinct
names in JavaScript object key order (array-index names numerically first,
then the rest in first-insertion order). -/
def dedupKeys (names : List String) : List String := names.foldl insertKey []

/-- A JSON-validity oracle that rejects everything (any concrete choice is
interchangeable for documents without example blocks). -/
def jvFalse : String → Bool := fun _ => false

/-- The document fragment of the spec's scenario: `h2 Queries`, `h3
getTicket`, `p Description`, `p Fetch a single ticket`, then the arguments
table (a table's cheerio `.text()` is the concatenation of its cell texts). -/
def c1doc : List Node :=
  [⟨Tag.h2, "Queries", []⟩, ⟨Tag.h3, "getTicket", []⟩,
   ⟨Tag.p, "Description", []⟩, ⟨Tag.p, "Fetch a single ticket", []⟩,
   ticketTable]

/-- Document with two `h3 dup` headings (the second carrying a description)
around an `h3 beta`, for the duplicate-name semantics of C9. -/
def c9doc : List Node :=
  [⟨Tag.h2, "Queries", []⟩, ⟨Tag.h3, "dup", []⟩, ⟨Tag.h3, "beta", []⟩,
   ⟨Tag.h3, "dup", []⟩, ⟨Tag.p, "Description", []⟩, ⟨Tag.p, "Second version", []⟩]

/-- Document whose heading names mix an array-index-like name with a plain
name: `h3 zeta`, then `h3 10` twice (the second carrying a description). -/
def c9numdoc : List Node :=
  [⟨Tag.h2, "Queries", []⟩, ⟨Tag.h3, "zeta", []⟩, ⟨Tag.h3, "10", []⟩,
   ⟨Tag.h3, "10", []⟩, ⟨Tag.p, "Description", []⟩, ⟨Tag.p, "Second version", []⟩]

/-- The ordering invariant of a JavaScript key sequence: an array-index key
precedes another only with a smaller number, always precedes a plain string
key, and two plain string keys are merely distinct. -/
def keyOrd (a b : String) : Prop :=
  (isArrayIndexKey a = true ∧ isArrayIndexKey b = true ∧ keyNum a < keyNum b) ∨
  (isArrayIndexKey a = true ∧ isArrayIndexKey b = false) ∨
  (isArrayIndexKey a = false ∧ isArrayIndexKey b = false ∧ a ≠ b)

/-! ## Supporting lemmas -/

/-- Non-empty identifier shape `[a-zA-Z_][a-zA-Z0-9_]*`. -/
def isIdentL : List Char → Bool
  | [] => false
  | c :: cs => isIdentStart c && cs.all isIdentChar

theorem hasBangL_dropWhile (l : List Char) :
    hasBangL (l.dropWhile isJsWs) = hasBangL l := by
  induction l with
  | nil => rfl
  | cons c cs ih =>
    by_cases hc : isJsWs c = true
    · have hbang : (c == '!') = false := by
        cases hcb : c == '!'
        · rfl
        · have hce : c = '!' := by simpa using hcb
          subst hce
          have : isJsWs '!' = false := by decide
          rw [this] at hc
          cases hc
      simp [List.dropWhile, hc, hasBangL, hbang] at ih ⊢
      exact ih
    · simp [List.dropWhile, hc]

theorem hasBangL_reverse (l : List Char) : hasBangL l.reverse = hasBangL l := by
  simp [hasBangL]

theorem hasBangL_trimL (l : List Char) : hasBangL (trimL l) = hasBangL l := by
  unfold trimL
  rw [hasBangL_reverse, hasBangL_dropWhile, hasBangL_reverse, hasBangL_dropWhile]

theorem matchNameType_inv {cs nm ty : List Char}
    (h : matchNameType cs = some (nm, ty)) :
    isIdentL nm = true ∧ ty ≠ [] := by
  cases cs with
  | nil => simp [matchNameType] at h
  | cons c rest =>
    simp only [matchNameType] at h
    by_cases hs : isIdentStart c = true
    · rw [if_pos hs] at h
      split at h
      · split at h
        · cases h
        · rename_i tail hmatch hguard
          injection h with h'
          injection h' with h1 h2
          subst h1
          subst h2
          constructor
          · simp only [isIdentL, hs, Bool.true_and, List.all_eq_true]
            intro x hx
            exact List.mem_takeWhile_imp hx
          · intro hnil
            rw [hnil] at hguard
            simp [List.isEmpty] at hguard
      · cases h
    · rw [if_neg hs] at h
      cases h

theorem rowToField_inv {row : List String} {f : GraphQLField}
    (h : rowToField row = some f) :
    f.required = hasBangL f.type.toList ∧ isIdentL f.name.toList = true := by
  unfold rowToField at h
  split at h
  · rename_i c0 c1 rest
    split at h
    · rename_i nm ty hmt
      injection h with h'
      subst h'
      obtain ⟨hid, -⟩ := matchNameType_inv hmt
      refine ⟨?_, hid⟩
      show hasBangL ty = hasBangL (trimS (String.mk ty)).toList
      have : (trimS (String.mk ty)).toList = trimL ty := rfl
      rw [this, hasBangL_trimL]
    · cases h
  · cases h

theorem rowToArgument_inv {row : List String} {a : GraphQLArgument}
    (h : rowToArgument row = some a) :
    a.required = hasBangL a.type.toList ∧ isIdentL a.name.toList = true := by
  unfold rowToArgument at h
  split at h
  · rename_i c0 c1 rest
    split at h
    · rename_i nm ty hmt
      injection h with h'
      subst h'
      obtain ⟨hid, -⟩ := matchNameType_inv hmt
      refine ⟨?_, hid⟩
      show hasBangL ty = hasBangL (trimS (String.mk ty)).toList
      have : (trimS (String.mk ty)).toList = trimL ty := rfl
      rw [this, hasBangL_trimL]
    · cases h
  · cases h

/-! ## Claims -/

/-- C3: every Field or Argument record emitted by the table parser has its
required flag true exactly when its stored type string contains `!`, and
every emitted record's name is a non-empty identifier — a body row whose
first cell does not match the identifier-dash-type pattern emits no record. -/
theorem c3_table_required_iff_bang (t : Node) :
    (∀ f ∈ parseFieldsTable t,
        (f.required = true ↔ hasBangL f.type.toList = true) ∧
        isIdentL f.name.toList = true) ∧
    (∀ a ∈ parseArgumentsTable t,
        (a.required = true ↔ hasBangL a.type.toList = true) ∧
        isIdentL a.name.toList = true) := by
  constructor
  · intro f hf
    obtain ⟨row, -, hsome⟩ := List.mem_filterMap.mp hf
    obtain ⟨hreq, hid⟩ := rowToField_inv hsome
    exact ⟨by rw [hreq], hid⟩
  · intro a ha
    obtain ⟨row, -, hsome⟩ := List.mem_filterMap.mp ha
    obtain ⟨hreq, hid⟩ := rowToArgument_inv hsome
    exact ⟨by rw [hreq], hid⟩

/-- C3 witness: the scenario row `ticketId - ID!` / `Unique identifier`. -/
theorem c3_witness :
    ticketIdField ∈ parseFieldsTable ticketTable ∧
    (ticketIdField.required = true ↔ hasBangL ticketIdField.type.toList = true) :=
  ⟨by decide, ((c3_table_required_iff_bang ticketTable).1 ticketIdField (by decide)).1⟩

/-- C4: `inferTypeKind` is pure and total and applies its rules in order —
`Input` suffix first, then `Enum` suffix or all-uppercase, then the scalar
list, else `OBJECT`; `INTERFACE` and `UNION` are never returned. -/
theorem c4_kind_cascade :
    (∀ n : String, inferTypeKind n ≠ TypeKind.INTERFACE ∧
        inferTypeKind n ≠ TypeKind.UNION) ∧
    (∀ n : String, strEndsWith n "Input" = true →
        inferTypeKind n = TypeKind.INPUT_OBJECT) ∧
    (∀ n : String, strEndsWith n "Input" = false →
        (strEndsWith n "Enum" || strToUpper n == n) = true →
        inferTypeKind n = TypeKind.ENUM) ∧
    (∀ n : String, strEndsWith n "Input" = false →
        (strEndsWith n "Enum" || strToUpper n == n) = false →
        scalarNames.contains n = true → inferTypeKind n = TypeKind.SCALAR) ∧
    (∀ n : String, strEndsWith n "Input" = false →
        (strEndsWith n "Enum" || strToUpper n == n) = false →
        scalarNames.contains n = false → inferTypeKind n = TypeKind.OBJECT) ∧
    inferTypeKind "FooInput" = TypeKind.INPUT_OBJECT := by
  refine ⟨?_, ?_, ?_, ?_, ?_, by decide⟩
  · intro n
    unfold inferTypeKind
    split
    · exact ⟨by simp, by simp⟩
    · split
      · exact ⟨by simp, by simp⟩
      · split
        · exact ⟨by simp, by simp⟩
        · exact ⟨by simp, by simp⟩
  · intro n h; simp [inferTypeKind, h]
  · intro n h1 h2; simp [inferTypeKind, h1, h2]
  · intro n h1 h2 h3
    simp [inferTypeKind, h1, h2]
    simpa using h3
  · intro n h1 h2 h3
    simp [inferTypeKind, h1, h2]
    simpa using h3

/-! ### Section iteration and mapping lemmas (for C1, C2, C9) -/

theorem keysOf_cons {α : Type} (a : String) (b : α) (m : List (String × α)) :
    keysOf ((a, b) :: m) = a :: keysOf m := rfl

theorem keysOf_upsert {α : Type} (m : List (String × α)) (k : String) (v : α) :
    keysOf (upsert m k v) = insertKey (keysOf m) k := by
  induction m with
  | nil => rfl
  | cons kv rest ih =>
    obtain ⟨k', v'⟩ := kv
    by_cases hk : k' = k
    · simp [upsert, insertKey, hk, keysOf_cons, keysOf]
    · by_cases hins : insBefore k k' = true
      · simp [upsert, insertKey, hk, hins, keysOf_cons, keysOf]
      · have ih2 : List.map Prod.fst (upsert rest k v)
            = insertKey (List.map Prod.fst rest) k := ih
        simp [upsert, insertKey, hk, hins, keysOf_cons, keysOf, ih2]

theorem lookupKey_upsert {α : Type} (m : List (String × α)) (k : String) (v : α) :
    lookupKey (upsert m k v) k = some v := by
  induction m with
  | nil => simp [upsert, lookupKey]
  | cons kv rest ih =>
    obtain ⟨k', v'⟩ := kv
    by_cases hk : k' = k
    · simp [upsert, lookupKey, hk]
    · by_cases hins : insBefore k k' = true
      · simp [upsert, lookupKey, hk, hins]
      · simp [upsert, lookupKey, hk, hins, ih]

theorem parseOperation_eq_none {jv : String → Bool} {t : String}
    {sib : List Node} {kind : OpKind} :
    parseOperation jv t sib kind = none ↔ trimS t = "" := by
  simp only [parseOperation]
  split <;> simp_all

theorem parseOperation_name {jv : String → Bool} {t : String} {sib : List Node}
    {kind : OpKind} {op : GraphQLOperation}
    (h : parseOperation jv t sib kind = some op) : op.name = trimS t := by
  simp only [parseOperation] at h
  split at h
  · cases h
  · injection h with h'
    subst h'
    rfl

theorem parseType_eq_none {t : String} {sib : List Node} :
    parseType t sib = none ↔ trimS t = "" := by
  simp only [parseType]
  split <;> simp_all

theorem parseType_name {t : String} {sib : List Node} {ty : GraphQLType}
    (h : parseType t sib = some ty) : ty.name = trimS t := by
  simp only [parseType] at h
  split at h
  · cases h
  · injection h with h'
    subst h'
    rfl

theorem stopAtH2_cons (n : Node) (l : List Node) :
    stopAtH2 (n :: l) = if n.tag = Tag.h2 then [] else n :: stopAtH2 l := by
  by_cases h : n.tag = Tag.h2 <;> simp [stopAtH2, List.takeWhile_cons, h]

theorem entryNames_cons (n : Node) (l : List Node) :
    entryNames (n :: l) =
      if n.tag = Tag.h3 then
        (if trimS n.text = "" then entryNames l else trimS n.text :: entryNames l)
      else entryNames l := by
  by_cases h : n.tag = Tag.h3
  · by_cases ht : trimS n.text = "" <;> simp [entryNames, h, ht]
  · simp [entryNames, h]

theorem keys_collectOps (jv : String → Bool) (kind : OpKind) :
    ∀ (l : List Node) (acc : OpMap),
      keysOf (collectOps jv kind l acc)
        = (entryNames (stopAtH2 l)).foldl insertKey (keysOf acc) := by
  intro l
  induction l with
  | nil => intro acc; simp [collectOps, stopAtH2, entryNames]
  | cons n rest ih =>
    intro acc
    rw [stopAtH2_cons]
    by_cases h2 : n.tag = Tag.h2
    · simp [collectOps, h2, entryNames]
    · rw [if_neg h2, entryNames_cons]
      by_cases h3 : n.tag = Tag.h3
      · cases hop : parseOperation jv n.text rest kind with
        | none =>
          have hname : trimS n.text = "" := parseOperation_eq_none.mp hop
          simp [collectOps, h2, h3, hop, ih, hname]
        | some op =>
          have hname := parseOperation_name hop
          have hne : ¬ trimS n.text = "" := by
            intro hemp
            rw [parseOperation_eq_none.mpr hemp] at hop
            cases hop
          simp [collectOps, h2, h3, hop, ih, keysOf_upsert, hname, hne]
      · simp [collectOps, h2, h3, ih]

theorem keys_collectTypes :
    ∀ (l : List Node) (acc : TyMap),
      keysOf (collectTypes l acc) = (entryNames l).foldl insertKey (keysOf acc) := by
  intro l
  induction l with
  | nil => intro acc; simp [collectTypes, entryNames]
  | cons n rest ih =>
    intro acc
    rw [entryNames_cons]
    by_cases h3 : n.tag = Tag.h3
    · cases hty : parseType n.text rest with
      | none =>
        have hname : trimS n.text = "" := parseType_eq_none.mp hty
        simp [collectTypes, h3, hty, ih, hname]
      | some ty =>
        have hname := parseType_name hty
        have hne : ¬ trimS n.text = "" := by
          intro hemp
          rw [parseType_eq_none.mpr hemp] at hty
          cases hty
        simp [collectTypes, h3, hty, ih, keysOf_upsert, hname, hne]
    · simp [collectTypes, h3, ih]

/-! ### Canonical decimal spellings are value-injective, and one JavaScript
assignment preserves the key-sequence ordering invariant `keyOrd` -/

theorem char_toNat_inj {a b : Char} (h : a.toNat = b.toNat) : a = b :=
  Char.ext (UInt32.ext h)

theorem string_toList_inj {a b : String} (h : a.toList = b.toList) : a = b := by
  cases a
  cases b
  exact congrArg String.mk h

theorem foldl_digitStep (l : List Char) :
    ∀ n : Nat, l.foldl digitStep n = n * 10 ^ l.length + digitsToNat l := by
  induction l with
  | nil => intro n; simp [digitsToNat]
  | cons c cs ih =>
    intro n
    have h2 : digitsToNat (c :: cs)
        = (c.toNat - 48) * 10 ^ cs.length + digitsToNat cs := by
      show cs.foldl digitStep (digitStep 0 c) = _
      rw [ih (digitStep 0 c)]
      simp [digitStep]
    show cs.foldl digitStep (digitStep n c)
        = n * 10 ^ (c :: cs).length + digitsToNat (c :: cs)
    rw [ih (digitStep n c), h2]
    simp only [digitStep, List.length_cons, pow_succ]
    ring

theorem digitsToNat_cons (c : Char) (cs : List Char) :
    digitsToNat (c :: cs) = (c.toNat - 48) * 10 ^ cs.length + digitsToNat cs := by
  show cs.foldl digitStep (digitStep 0 c) = _
  rw [foldl_digitStep]
  simp [digitStep]

theorem digitsToNat_lt {l : List Char} (h : l.all isDigitC = true) :
    digitsToNat l < 10 ^ l.length := by
  induction l with
  | nil => simp [digitsToNat]
  | cons c cs ih =>
    simp only [List.all_cons, Bool.and_eq_true] at h
    have hc : c.toNat - 48 ≤ 9 := by
      have h1 := h.1
      simp only [isDigitC, Bool.and_eq_true, decide_eq_true_eq] at h1
      omega
    have hcs := ih h.2
    rw [digitsToNat_cons]
    calc (c.toNat - 48) * 10 ^ cs.length + digitsToNat cs
        < (c.toNat - 48 + 1) * 10 ^ cs.length := by
          have e : (c.toNat - 48 + 1) * 10 ^ cs.length
              = (c.toNat - 48) * 10 ^ cs.length + 10 ^ cs.length := by ring
          rw [e]
          exact Nat.add_lt_add_left hcs _
      _ ≤ 10 * 10 ^ cs.length := Nat.mul_le_mul_right _ (by omega)
      _ = 10 ^ (c :: cs).length := by
          rw [List.length_cons, pow_succ]
          ring

theorem digitsToNat_ge {c : Char} (cs : List Char) (h1 : c.toNat ≠ 48)
    (h2 : isDigitC c = true) : 10 ^ cs.length ≤ digitsToNat (c :: cs) := by
  rw [digitsToNat_cons]
  simp only [isDigitC, Bool.and_eq_true, decide_eq_true_eq] at h2
  calc 10 ^ cs.length = 1 * 10 ^ cs.length := (one_mul _).symm
    _ ≤ (c.toNat - 48) * 10 ^ cs.length := Nat.mul_le_mul_right _ (by omega)
    _ ≤ _ := Nat.le_add_right _ _

theorem nat_digit_split {x u y w N : Nat} (hu : u < N) (hw : w < N)
    (h : x * N + u = y * N + w) : x = y ∧ u = w := by
  have hN : 0 < N := Nat.lt_of_le_of_lt (Nat.zero_le u) hu
  have e1 : (x * N + u) / N = x := by
    rw [mul_comm, Nat.mul_add_div hN, Nat.div_eq_of_lt hu, Nat.add_zero]
  have e2 : (y * N + w) / N = y := by
    rw [mul_comm, Nat.mul_add_div hN, Nat.div_eq_of_lt hw, Nat.add_zero]
  have hxy : x = y := by rw [← e1, h, e2]
  subst hxy
  exact ⟨rfl, Nat.add_left_cancel h⟩

theorem digits_inj_of_length {a : List Char} :
    ∀ {b : List Char}, a.length = b.length → a.all isDigitC = true →
      b.all isDigitC = true → digitsToNat a = digitsToNat b → a = b := by
  induction a with
  | nil =>
    intro b hlen _ _ _
    cases b with
    | nil => rfl
    | cons d ds => simp at hlen
  | cons c cs ih =>
    intro b hlen ha hb hv
    cases b with
    | nil => simp at hlen
    | cons d ds =>
      have hlen2 : cs.length = ds.length := by simpa using hlen
      simp only [List.all_cons, Bool.and_eq_true] at ha hb
      rw [digitsToNat_cons, digitsToNat_cons, hlen2] at hv
      have hcs := digitsToNat_lt ha.2
      have hds := digitsToNat_lt hb.2
      rw [hlen2] at hcs
      obtain ⟨hhead, htail⟩ := nat_digit_split hcs hds hv
      have hc48 : 48 ≤ c.toNat := by
        have h1 := ha.1
        simp only [isDigitC, Bool.and_eq_true, decide_eq_true_eq] at h1
        exact h1.1
      have hd48 : 48 ≤ d.toNat := by
        have h1 := hb.1
        simp only [isDigitC, Bool.and_eq_true, decide_eq_true_eq] at h1
        exact h1.1
      have hcd : c = d := char_toNat_inj (by omega)
      rw [hcd, ih hlen2 ha.2 hb.2 htail]

theorem isDigitsCanon_parts {c : Char} {cs : List Char}
    (h : isDigitsCanon (c :: cs) = true) :
    isDigitC c = true ∧ cs.all isDigitC = true ∧ (cs ≠ [] → c.toNat ≠ 48) := by
  simp only [isDigitsCanon, Bool.and_eq_true, Bool.not_eq_true'] at h
  obtain ⟨⟨h1, h2⟩, h3⟩ := h
  refine ⟨h1, h2, ?_⟩
  intro hne hc48
  cases cs with
  | nil => exact hne rfl
  | cons e es =>
    rw [hc48] at h3
    simp [List.isEmpty] at h3

theorem digitsCanon_inj {a b : List Char} (ha : isDigitsCanon a = true)
    (hb : isDigitsCanon b = true) (h : digitsToNat a = digitsToNat b) :
    a = b := by
  cases a with
  | nil => simp [isDigitsCanon] at ha
  | cons c cs =>
    cases b with
    | nil => simp [isDigitsCanon] at hb
    | cons d ds =>
      obtain ⟨hc1, hc2, hc3⟩ := isDigitsCanon_parts ha
      obtain ⟨hd1, hd2, hd3⟩ := isDigitsCanon_parts hb
      rcases Nat.lt_trichotomy cs.length ds.length with hl | hl | hl
      · exfalso
        have hdsne : ds ≠ [] := by
          intro he
          rw [he] at hl
          simp at hl
        have hlow : 10 ^ ds.length ≤ digitsToNat (d :: ds) :=
          digitsToNat_ge ds (hd3 hdsne) hd1
        have hup : digitsToNat (c :: cs) < 10 ^ (c :: cs).length :=
          digitsToNat_lt (by simp [List.all_cons, hc1, hc2])
        have hle : 10 ^ (c :: cs).length ≤ 10 ^ ds.length := by
          apply Nat.pow_le_pow_right (by omega)
          simp only [List.length_cons]
          omega
        omega
      · exact digits_inj_of_length (by simpa using hl)
          (by simp [List.all_cons, hc1, hc2])
          (by simp [List.all_cons, hd1, hd2]) h
      · exfalso
        have hcsne : cs ≠ [] := by
          intro he
          rw [he] at hl
          simp at hl
        have hlow : 10 ^ cs.length ≤ digitsToNat (c :: cs) :=
          digitsToNat_ge cs (hc3 hcsne) hc1
        have hup : digitsToNat (d :: ds) < 10 ^ (d :: ds).length :=
          digitsToNat_lt (by simp [List.all_cons, hd1, hd2])
        have hle : 10 ^ (d :: ds).length ≤ 10 ^ cs.length := by
          apply Nat.pow_le_pow_right (by omega)
          simp only [List.length_cons]
          omega
        omega

theorem arrayIndexKey_inj {a b : String} (ha : isArrayIndexKey a = true)
    (hb : isArrayIndexKey b = true) (h : keyNum a = keyNum b) : a = b := by
  simp only [isArrayIndexKey, Bool.and_eq_true, decide_eq_true_eq] at ha hb
  exact string_toList_inj (digitsCanon_inj ha.1 hb.1 h)

theorem keyOrd_ne {a b : String} (h : keyOrd a b) : a ≠ b := by
  rcases h with ⟨-, -, hlt⟩ | ⟨h1, h2⟩ | ⟨-, -, hne⟩
  · intro he
    subst he
    exact Nat.lt_irrefl _ hlt
  · intro he
    subst he
    rw [h1] at h2
    cases h2
  · exact hne

theorem insBefore_true_iff {k k2 : String} :
    insBefore k k2 = true ↔
      isArrayIndexKey k = true ∧
        (isArrayIndexKey k2 = false ∨ keyNum k < keyNum k2) := by
  simp [insBefore]

theorem mem_insertKey {k x : String} :
    ∀ {ks : List String}, x ∈ insertKey ks k → x = k ∨ x ∈ ks := by
  intro ks
  induction ks with
  | nil =>
    intro h
    simp [insertKey] at h
    exact Or.inl h
  | cons k' rest ih =>
    intro h
    simp only [insertKey] at h
    split at h
    · exact Or.inr h
    · split at h
      · rcases List.mem_cons.mp h with h1 | h2
        · exact Or.inl h1
        · exact Or.inr h2
      · rcases List.mem_cons.mp h with h1 | h2
        · exact Or.inr (h1 ▸ List.mem_cons_self k' rest)
        · rcases ih h2 with h3 | h4
          · exact Or.inl h3
          · exact Or.inr (List.mem_cons_of_mem _ h4)

theorem pairwise_insertKey {k : String} :
    ∀ {ks : List String}, ks.Pairwise keyOrd →
      (insertKey ks k).Pairwise keyOrd := by
  intro ks
  induction ks with
  | nil => intro _; simp [insertKey]
  | cons k' rest ih =>
    intro hp
    rw [List.pairwise_cons] at hp
    obtain ⟨hk', hrest⟩ := hp
    by_cases heq : k' = k
    · simp only [insertKey, if_pos heq]
      exact List.pairwise_cons.mpr ⟨hk', hrest⟩
    · by_cases hins : insBefore k k' = true
      · simp only [insertKey, if_neg heq, if_pos hins]
        obtain ⟨hik, hdisc⟩ := insBefore_true_iff.mp hins
        refine List.pairwise_cons.mpr ⟨?_, List.pairwise_cons.mpr ⟨hk', hrest⟩⟩
        intro x hx
        rcases List.mem_cons.mp hx with hx1 | hx2
        · subst hx1
          cases hk2 : isArrayIndexKey x with
          | false => exact Or.inr (Or.inl ⟨hik, hk2⟩)
          | true =>
            rcases hdisc with hf | hlt
            · rw [hk2] at hf
              cases hf
            · exact Or.inl ⟨hik, hk2, hlt⟩
        · have hko := hk' x hx2
          rcases hko with ⟨hik', hix, hlt'⟩ | ⟨hik', hxf⟩ | ⟨hk'f, hxf, hne⟩
          · rcases hdisc with hf | hlt
            · rw [hik'] at hf
              cases hf
            · exact Or.inl ⟨hik, hix, Nat.lt_trans hlt hlt'⟩
          · exact Or.inr (Or.inl ⟨hik, hxf⟩)
          · exact Or.inr (Or.inl ⟨hik, hxf⟩)
      · simp only [insertKey, if_neg heq, if_neg hins]
        refine List.pairwise_cons.mpr ⟨?_, ih hrest⟩
        intro x hx
        rcases mem_insertKey hx with hx1 | hx2
        · subst hx1
          rw [insBefore_true_iff] at hins
          cases hik : isArrayIndexKey x with
          | false =>
            cases hik' : isArrayIndexKey k' with
            | false => exact Or.inr (Or.inr ⟨hik', hik, heq⟩)
            | true => exact Or.inr (Or.inl ⟨hik', hik⟩)
          | true =>
            have hk2 : isArrayIndexKey k' = true := by
              cases hik' : isArrayIndexKey k' with
              | true => rfl
              | false => exact absurd ⟨hik, Or.inl hik'⟩ hins
            have hle : keyNum k' ≤ keyNum x := by
              by_contra hlt
              push_neg at hlt
              exact hins ⟨hik, Or.inr hlt⟩
            have hne : keyNum k' ≠ keyNum x := by
              intro he
              exact heq (arrayIndexKey_inj hk2 hik he)
            exact Or.inl ⟨hk2, hik, lt_of_le_of_ne hle hne⟩
        · exact hk' x hx2

theorem pairwise_foldl_insertKey (names : List String) :
    ∀ ks : List String, ks.Pairwise keyOrd →
      (names.foldl insertKey ks).Pairwise keyOrd := by
  induction names with
  | nil => intro ks h; simpa using h
  | cons n rest ih =>
    intro ks h
    rw [List.foldl_cons]
    exact ih _ (pairwise_insertKey h)

theorem nodup_foldl_insertKey (names : List String) :
    (names.foldl insertKey []).Nodup :=
  (pairwise_foldl_insertKey names [] List.Pairwise.nil).imp fun h => keyOrd_ne h

/-- C1 counterexample: on the scenario fragment the parsed `getTicket`
operation carries NO arguments (the claim requires exactly one): the
return-type scan advances the shared cursor past the table, so the
arguments scan never reaches it. -/
theorem c1_counterexample :
    (lookupKey (parseQueries jvFalse c1doc) "getTicket").map
      (fun op => op.arguments) = some none ∧
    (lookupKey (parseQueries jvFalse c1doc) "getTicket").map
        (fun op => op.arguments)
      ≠ some (some [{ name := "ticketId", type := "ID!",
                      description := some "Unique identifier",
                      required := true }]) := by decide

/-- C1 (amended): the scenario fragment parses to
`queries["getTicket"] = {name:"getTicket", kind:"query",
description:"Fetch a single ticket"}` with `arguments`, `returnType` and
`example` all unset. -/
theorem c1_amended_scenario :
    parseQueries jvFalse c1doc
      = [("getTicket",
          { name := "getTicket", type := OpKind.query,
            description := some "Fetch a single ticket" })] := by decide

/-- C2 (amended): for Queries and Mutations, entry iteration yields exactly
the `h3` headings that precede the next `h2` after the section heading; for
Types the iteration never stops at an `h2` and yields every later `h3`.
Keys are the non-empty trimmed heading texts, deduplicated in JavaScript
object key order (`dedupKeys`). -/
theorem c2_entry_iteration (jv : String → Bool) (doc : List Node) :
    keysOf (parseQueries jv doc)
      = (match findSection doc "queries" with
         | some rest => dedupKeys (entryNames (stopAtH2 rest))
         | none => []) ∧
    keysOf (parseMutations jv doc)
      = (match findSection doc "mutations" with
         | some rest => dedupKeys (entryNames (stopAtH2 rest))
         | none => []) ∧
    keysOf (parseTypes doc)
      = (match findSection doc "types" with
         | some rest => dedupKeys (entryNames rest)
         | none => []) := by
  refine ⟨?_, ?_, ?_⟩
  · unfold parseQueries
    cases findSection doc "queries" with
    | none => rfl
    | some rest =>
      rw [keys_collectOps]
      simp [dedupKeys, keysOf]
  · unfold parseMutations
    cases findSection doc "mutations" with
    | none => rfl
    | some rest =>
      rw [keys_collectOps]
      simp [dedupKeys, keysOf]
  · unfold parseTypes
    cases findSection doc "types" with
    | none => rfl
    | some rest =>
      rw [keys_collectTypes]
      simp [dedupKeys, keysOf]

/-- C2 counterexample: an `h3` lying after a subsequent `h2` DOES contribute
an entry to the Types section (while the same shape contributes nothing to
Queries, which stops at the `h2`). -/
theorem c2_counterexample :
    keysOf (parseTypes
      [⟨Tag.h2, "Types", []⟩, ⟨Tag.h2, "Other", []⟩, ⟨Tag.h3, "Straggler", []⟩])
      = ["Straggler"] ∧
    keysOf (parseQueries jvFalse
      [⟨Tag.h2, "Queries", []⟩, ⟨Tag.h2, "Other", []⟩, ⟨Tag.h3, "Straggler", []⟩])
      = [] := by decide

/-- C9 counterexample: JavaScript objects iterate array-index-like keys
numerically first, so with headings `zeta`, `10`, `10` the key order is
`["10", "zeta"]` — NOT the first-insertion order `["zeta", "10"]` the claim
states (the duplicate `10` still overwrites in place). -/
theorem c9_counterexample :
    keysOf (parseQueries jvFalse c9numdoc) = ["10", "zeta"] ∧
    keysOf (parseQueries jvFalse c9numdoc) ≠ ["zeta", "10"] := by decide

/-- C9 (amended): a later entry with a duplicate name overwrites the
earlier record in place (`lookupKey` finds the new value and the key
sequence changes exactly by `insertKey`), keys stay unique for every parse,
and iteration order is JavaScript object key order — array-index-like names
numerically first, then the remaining names in first-insertion order —
demonstrated on `c9doc` (plain names keep first-insertion order, `dup`
keeping its first position with the second record's description) and on
`c9numdoc` (the name `10` iterates before the earlier-inserted `zeta`, its
record being the later, description-carrying one). -/
theorem c9_duplicate_overwrite :
    (∀ (m : OpMap) (k : String) (v : GraphQLOperation),
        lookupKey (upsert m k v) k = some v ∧
        keysOf (upsert m k v) = insertKey (keysOf m) k) ∧
    (∀ (jv : String → Bool) (doc : List Node),
        (keysOf (parseQueries jv doc)).Nodup) ∧
    (∀ doc : List Node, (keysOf (parseTypes doc)).Nodup) ∧
    parseQueries jvFalse c9doc
      = [("dup", { name := "dup", type := OpKind.query,
                   description := some "Second version" }),
         ("beta", { name := "beta", type := OpKind.query })] ∧
    parseQueries jvFalse c9numdoc
      = [("10", { name := "10", type := OpKind.query,
                  description := some "Second version" }),
         ("zeta", { name := "zeta", type := OpKind.query })] := by
  refine ⟨fun m k v => ⟨lookupKey_upsert m k v, keysOf_upsert m k v⟩, ?_, ?_,
    by decide, by decide⟩
  · intro jv doc
    unfold parseQueries
    cases findSection doc "queries" with
    | none => simp [keysOf]
    | some rest =>
      rw [keys_collectOps]
      exact nodup_foldl_insertKey _
  · intro doc
    unfold parseTypes
    cases findSection doc "types" with
    | none => simp [keysOf]
    | some rest =>
      rw [keys_collectTypes]
      exact nodup_foldl_insertKey _

/-- C4 witness: the cascade applied at concrete names — `"FooInput"` is
`INPUT_OBJECT`, `"STATUS"` is `ENUM`, `"ID"` is `ENUM` (all-uppercase takes
precedence over the scalar list), `"Float"` is `SCALAR`, `"Ticket"` is
`OBJECT`. -/
theorem c4_witness :
    inferTypeKind "FooInput" = TypeKind.INPUT_OBJECT ∧
    inferTypeKind "STATUS" = TypeKind.ENUM ∧
    inferTypeKind "ID" = TypeKind.ENUM ∧
    inferTypeKind "Float" = TypeKind.SCALAR ∧
    inferTypeKind "Ticket" = TypeKind.OBJECT :=
  ⟨c4_kind_cascade.2.1 "FooInput" (by decide),
   c4_kind_cascade.2.2.1 "STATUS" (by decide) (by decide),
   c4_kind_cascade.2.2.1 "ID" (by decide) (by decide),
   c4_kind_cascade.2.2.2.1 "Float" (by decide) (by decide) (by decide),
   c4_kind_cascade.2.2.2.2.1 "Ticket" (by decide) (by decide) (by decide)⟩

/-! ### Lemmas for C5 (missing sections) -/

theorem findSection_eq_none {doc : List Node} {title : String}
    (h : ∀ n ∈ doc, n.tag = Tag.h2 → strToLower (trimS n.text) ≠ title) :
    findSection doc title = none := by
  induction doc with
  | nil => rfl
  | cons n rest ih =>
    have h1 := h n (List.mem_cons_self n rest)
    have hcond : ¬(n.tag = Tag.h2 && strToLower (trimS n.text) = title : Bool) := by
      intro hc
      simp only [Bool.and_eq_true, decide_eq_true_eq] at hc
      exact h1 hc.1 hc.2
    simp only [findSection]
    rw [if_neg hcond]
    exact ih fun m hm => h m (List.mem_cons_of_mem n hm)

/-- C5: a document with none of the three section headings (matched
case-insensitively after trim) parses without error to a catalog whose
queries, mutations and types mappings are all empty and whose summary
counts are all zero. -/
theorem c5_no_sections_empty_catalog (jv : String → Bool) (doc : List Node)
    (h : ∀ n ∈ doc, n.tag = Tag.h2 →
        strToLower (trimS n.text) ∉ (["queries", "mutations", "types"] : List String)) :
    (parseAll jv doc).queries = [] ∧ (parseAll jv doc).mutations = [] ∧
    (parseAll jv doc).types = [] ∧
    (parseAll jv doc).summary
      = { totalQueries := 0, totalMutations := 0, totalTypes := 0 } := by
  have hq : findSection doc "queries" = none :=
    findSection_eq_none fun n hn ht he => h n hn ht (by rw [he]; simp)
  have hm : findSection doc "mutations" = none :=
    findSection_eq_none fun n hn ht he => h n hn ht (by rw [he]; simp)
  have hty : findSection doc "types" = none :=
    findSection_eq_none fun n hn ht he => h n hn ht (by rw [he]; simp)
  have q1 : parseQueries jv doc = [] := by simp [parseQueries, hq]
  have m1 : parseMutations jv doc = [] := by simp [parseMutations, hm]
  have t1 : parseTypes doc = [] := by simp [parseTypes, hty]
  refine ⟨?_, ?_, ?_, ?_⟩ <;> simp [parseAll, q1, m1, t1, keysOf]

/-- C5 witness: a document with a paragraph and an unrelated `h2` heading. -/
theorem c5_witness :
    (∀ n ∈ ([⟨Tag.p, "hello", []⟩, ⟨Tag.h2, "Introduction", []⟩] : List Node),
        n.tag = Tag.h2 →
        strToLower (trimS n.text) ∉ (["queries", "mutations", "types"] : List String)) ∧
    (parseAll jvFalse [⟨Tag.p, "hello", []⟩, ⟨Tag.h2, "Introduction", []⟩]).summary
      = { totalQueries := 0, totalMutations := 0, totalTypes := 0 } :=
  ⟨by decide,
   (c5_no_sections_empty_catalog jvFalse
     [⟨Tag.p, "hello", []⟩, ⟨Tag.h2, "Introduction", []⟩] (by decide)).2.2.2⟩

/-- C6: a labeled variables/response code block whose text the JSON decoder
rejects yields the raw trimmed text (no propagated failure); an example
block with only a query code fragment yields the query text with variables
and response left undefined — and this holds for every decoder and every
block text. -/
theorem c6_example_fallback (jv : String → Bool) (s t : String)
    (hv : jv (trimS s) = false) (hr : jv (trimS t) = false) :
    parseExample jv [⟨Tag.p, "Variables", []⟩, ⟨Tag.pre, s, []⟩]
      = { query := "", vars := some (JVal.raw (trimS s)), response := none } ∧
    parseExample jv [⟨Tag.p, "Response", []⟩, ⟨Tag.code, t, []⟩]
      = { query := "", vars := none, response := some (JVal.raw (trimS t)) } ∧
    (∀ u : String, parseExample jv [⟨Tag.p, "Query", []⟩, ⟨Tag.pre, u, []⟩]
      = { query := trimS u, vars := none, response := none }) := by
  refine ⟨?_, ?_, fun u => ?_⟩
  · have h1 : strContains (strToLower "Variables") "query" = false := by decide
    have h2 : strContains (strToLower "Variables") "variables" = true := by decide
    simp [parseExample, parseExampleGo, isHeading, nextIsCode, nextText,
      h1, h2, hv, Bool.and_false]
  · have h1 : strContains (strToLower "Response") "query" = false := by decide
    have h2 : strContains (strToLower "Response") "variables" = false := by decide
    have h3 : strContains (strToLower "Response") "response" = true := by decide
    simp [parseExample, parseExampleGo, isHeading, nextIsCode, nextText,
      h1, h2, h3, hr, Bool.and_false]
  · have h1 : strContains (strToLower "Query") "query" = true := by decide
    simp [parseExample, parseExampleGo, isHeading, nextIsCode, nextText,
      h1, Bool.and_false]

/-- C6 witness: a rejected variables block falls back to its raw trimmed
text. -/
theorem c6_witness :
    jvFalse (trimS " not json ") = false ∧
    parseExample jvFalse [⟨Tag.p, "Variables", []⟩, ⟨Tag.pre, " not json ", []⟩]
      = { query := "", vars := some (JVal.raw (trimS " not json ")),
          response := none } :=
  ⟨rfl, (c6_example_fallback jvFalse " not json " "x" rfl rfl).1⟩

/-- C8: the parse entry point fails only when no document tree can be built
from the input (the `MalformedDocument` error); for every input from which
a tree is built, it returns the best-effort catalog of `parseAll`, which is
total over documents. -/
theorem c8_error_only_malformed (load : String → Option (List Node))
    (jv : String → Bool) (input : String) :
    (loadAndParseAll load jv input = Except.error ParseError.malformedDocument ∧
      load input = none) ∨
    (∃ doc, load input = some doc ∧
      loadAndParseAll load jv input = Except.ok (parseAll jv doc)) := by
  cases h : load input with
  | none => exact Or.inl ⟨by simp [loadAndParseAll, h], rfl⟩
  | some doc => exact Or.inr ⟨doc, rfl, by simp [loadAndParseAll, h]⟩

/-! ### Lemmas for C7 (search semantics) -/

theorem containsSub_nil_pat (l : List Char) : containsSub [] l = true := by
  cases l <;> simp [containsSub, isPrefixOfB]

theorem containsSub_nil_str {pat : List Char} (h : pat ≠ []) :
    containsSub pat [] = false := by
  cases pat with
  | nil => exact absurd rfl h
  | cons p ps => simp [containsSub, isPrefixOfB]

theorem strContains_empty_pat (s : String) : strContains s "" = true :=
  containsSub_nil_pat s.toList

theorem toList_ne_nil {s : String} (h : s ≠ "") : s.toList ≠ [] := by
  intro hl
  apply h
  cases s with
  | mk d =>
    have hd : d = [] := hl
    rw [hd]

/-- JavaScript truthiness on an optional string field: an empty string is
falsy and short-circuits its branch, but for a non-empty query the guarded
and unguarded substring tests agree. -/
theorem truthy_guard (sl : String) (h : sl ≠ "") (d : String) :
    ((d != "") && strContains (strToLower d) sl) = strContains (strToLower d) sl := by
  by_cases hd : d = ""
  · subst hd
    have h1 : (("" : String) != "") = false := by decide
    rw [h1, Bool.false_and]
    show false = strContains (strToLower "") sl
    unfold strContains
    have h2 : (strToLower "").toList = ([] : List Char) := by decide
    rw [h2, containsSub_nil_str (toList_ne_nil h)]
  · have h1 : (d != "") = true := by simp [bne_iff_ne, hd]
    rw [h1, Bool.true_and]

theorem any_ext {α : Type} (f g : α → Bool) (h : ∀ a, f a = g a)
    (l : List α) : l.any f = l.any g := by
  induction l with
  | nil => rfl
  | cons a l ih => simp [List.any_cons, h a, ih]

theorem argMatch_eq_spec {q : String} (h : strToLower q ≠ "")
    (a : GraphQLArgument) : argMatch (strToLower q) a = specArgMatch q a := by
  simp only [argMatch, specArgMatch, truthy_guard _ h]

theorem opMatch_eq_spec (q : String) (op : GraphQLOperation) :
    opMatch (strToLower q) op = specOpMatch q op := by
  by_cases hq : strToLower q = ""
  · simp [opMatch, specOpMatch, hq, strContains_empty_pat]
  · simp only [opMatch, specOpMatch, truthy_guard _ hq,
      any_ext _ _ (argMatch_eq_spec hq)]

theorem fieldMatch_eq_spec {q : String} (h : strToLower q ≠ "")
    (f : GraphQLField) : fieldMatch (strToLower q) f = specFieldMatch q f := by
  simp only [fieldMatch, specFieldMatch, truthy_guard _ h]

theorem enumValueMatch_eq_spec {q : String} (h : strToLower q ≠ "")
    (e : EnumValue) : enumValueMatch (strToLower q) e = specEnumValueMatch q e := by
  simp only [enumValueMatch, specEnumValueMatch, truthy_guard _ h]

theorem tyMatch_eq_spec (q : String) (ty : GraphQLType) :
    tyMatch (strToLower q) ty = specTyMatch q ty := by
  by_cases hq : strToLower q = ""
  · simp [tyMatch, specTyMatch, hq, strContains_empty_pat]
  · simp only [tyMatch, specTyMatch, truthy_guard _ hq,
      any_ext _ _ (fieldMatch_eq_spec hq), any_ext _ _ (enumValueMatch_eq_spec hq)]

/-- C7: `searchOperations` filters the catalog's value sequence (so results
keep the catalog's own iteration order) by exactly the spec's matching
predicate —
case-insensitive substring over name, description, argument fields, return
type — and `searchTypes` by the type-record analogue; concretely,
`getTicketList` with description "Fetch tickets" is returned by
`search("TICKET")` over a queries catalog containing it. -/
theorem c7_search_filter :
    (∀ (q : String) (ops : OpMap),
        searchOperations q ops = (ops.map Prod.snd).filter (specOpMatch q)) ∧
    (∀ (q : String) (tys : TyMap),
        searchTypes q tys = (tys.map Prod.snd).filter (specTyMatch q)) ∧
    getTicketListOp ∈ searchOperations "TICKET" [("getTicketList", getTicketListOp)] := by
  refine ⟨?_, ?_, by decide⟩
  · intro q ops
    unfold searchOperations
    exact congrArg (fun f => (ops.map Prod.snd).filter f)
      (funext fun op => opMatch_eq_spec q op)
  · intro q tys
    unfold searchTypes
    exact congrArg (fun f => (tys.map Prod.snd).filter f)
      (funext fun ty => tyMatch_eq_spec q ty)

/-! ### Lemmas for C10 (endpoints) -/

theorem startsWithCI_lower {pat s : List Char} (h : startsWithCI pat s = true) :
    lowerL (s.take pat.length) = lowerL pat := by
  induction pat generalizing s with
  | nil => simp [lowerL]
  | cons p ps ih =>
    cases s with
    | nil => simp [startsWithCI] at h
    | cons c cs =>
      simp only [startsWithCI, Bool.and_eq_true, beq_iff_eq] at h
      obtain ⟨h1, h2⟩ := h
      simp only [List.length_cons, List.take_succ_cons, lowerL, List.map_cons]
      rw [List.cons.injEq]
      exact ⟨h1, ih h2⟩

theorem searchUrlFrom_lower {pat : List Char} :
    ∀ {s cap : List Char}, searchUrlFrom pat s = some cap →
      lowerL cap = lowerL pat := by
  intro s
  induction s with
  | nil =>
    intro cap h
    simp only [searchUrlFrom] at h
    split at h
    · rename_i hsw
      injection h with h'
      subst h'
      cases pat with
      | nil => rfl
      | cons p ps => simp [startsWithCI] at hsw
    · cases h
  | cons c cs ih =>
    intro cap h
    simp only [searchUrlFrom] at h
    split at h
    · rename_i hsw
      injection h with h'
      subst h'
      exact startsWithCI_lower hsw
    · split at h
      · cases h
      · exact ih h

theorem regexEndpoint_lower {lbl pat : List Char} :
    ∀ {t cap : List Char}, regexEndpoint lbl pat t = some cap →
      lowerL cap = lowerL pat := by
  intro t
  induction t with
  | nil => intro cap h; cases h
  | cons c cs ih =>
    intro cap h
    simp only [regexEndpoint] at h
    split at h
    · split at h
      · rename_i cap' hs
        injection h with h'
        subst h'
        exact searchUrlFrom_lower hs
      · exact ih h
    · exact ih h

theorem strToLower_mk_of_lower {cap : List Char} {url : String}
    (h : lowerL cap = lowerL url.toList) (hid : lowerL url.toList = url.toList) :
    strToLower (String.mk cap) = url := by
  show String.mk (lowerL cap) = url
  rw [h, hid]
  rfl

theorem endpointScanText_lower {ep : Endpoints} (t : List Char)
    (hus : strToLower ep.us = usUrl) (heu : strToLower ep.eu = euUrl) :
    strToLower (endpointScanText ep t).us = usUrl ∧
    strToLower (endpointScanText ep t).eu = euUrl := by
  unfold endpointScanText
  cases hu : regexEndpoint ("US data center".toList) usUrl.toList t with
  | none =>
    cases he : regexEndpoint ("EU data center".toList) euUrl.toList t with
    | none => exact ⟨hus, heu⟩
    | some cap =>
      exact ⟨hus, strToLower_mk_of_lower (regexEndpoint_lower he) (by decide)⟩
  | some cap =>
    cases he : regexEndpoint ("EU data center".toList) euUrl.toList t with
    | none =>
      exact ⟨strToLower_mk_of_lower (regexEndpoint_lower hu) (by decide), heu⟩
    | some cap' =>
      exact ⟨strToLower_mk_of_lower (regexEndpoint_lower hu) (by decide),
             strToLower_mk_of_lower (regexEndpoint_lower he) (by decide)⟩

theorem parseEndpoints_foldl_lower :
    ∀ (l : List Node) (ep : Endpoints),
      strToLower ep.us = usUrl → strToLower ep.eu = euUrl →
      strToLower (l.foldl
        (fun ep n => if isTextScanTag n.tag then endpointScanText ep n.text.toList
                     else ep) ep).us = usUrl ∧
      strToLower (l.foldl
        (fun ep n => if isTextScanTag n.tag then endpointScanText ep n.text.toList
                     else ep) ep).eu = euUrl := by
  intro l
  induction l with
  | nil => intro ep h1 h2; exact ⟨h1, h2⟩
  | cons n rest ih =>
    intro ep h1 h2
    rw [List.foldl_cons]
    by_cases hn : isTextScanTag n.tag = true
    · rw [if_pos hn]
      obtain ⟨g1, g2⟩ := endpointScanText_lower n.text.toList h1 h2
      exact ih _ g1 g2
    · rw [if_neg hn]
      exact ih _ h1 h2

/-- C10 (amended): the endpoints record of every parse carries both regions
(it is never empty), and each value equals the canonical region URL up to
letter case: defaults when the document has no endpoint mention, and the
captured text — a case-variant of the same URL, since the regexp is
case-insensitive — when it has one.  A document with no `p`/`div`/`code`
nodes keeps the defaults exactly. -/
theorem c10_endpoints_always_present (jv : String → Bool) (doc : List Node) :
    strToLower (parseAll jv doc).endpoints.us = usUrl ∧
    strToLower (parseAll jv doc).endpoints.eu = euUrl ∧
    parseEndpoints [] = { us := usUrl, eu := euUrl } := by
  have hep : (parseAll jv doc).endpoints = parseEndpoints doc := rfl
  rw [hep]
  unfold parseEndpoints
  obtain ⟨g1, g2⟩ := parseEndpoints_foldl_lower doc
    { us := usUrl, eu := euUrl } (by decide) (by decide)
  exact ⟨g1, g2, by decide⟩

/-- C10 counterexample: a document whose text matches the US pattern with an
uppercase URL re-assigns `us` to the captured uppercase text, so the
endpoints mapping is NOT always the exact canonical URL the claim states. -/
theorem c10_counterexample :
    (parseAll jvFalse
      [⟨Tag.p, "US data center HTTPS://API.SUPEROPS.AI/MSP", []⟩]).endpoints.us
        = "HTTPS://API.SUPEROPS.AI/MSP" ∧
    ("HTTPS://API.SUPEROPS.AI/MSP" : String) ≠ usUrl := by decide

end Superops
